import Mathlib

/-
Verification of the configuration-override utility in
src/core/server/config/google.js.

The JavaScript source gathers configuration overrides from three kinds of
sources (environment variables, positional file arguments, double-dashed
command-line flags), combines them into one flat key-value object with
lodash assign (shallow, later source wins), splits each key on hyphens,
expands it with unflatten into a single-path nested object, and deep-merges
all expansions with lodash merge.

The embedding below models JavaScript objects as ordered association lists
(insertion order preserved, keys unique when built by oset), JSON-like
values as the inductive JValue, thrown exceptions as Except errors, and the
module loader (require) as a partial map from resolved paths to values.
-/

namespace Ghost

/-- JSON-like values: scalars (strings kept verbatim), booleans (produced by
bare minimist flags), and objects as ordered association lists. -/
inductive JValue where
  | prim : String → JValue
  | bool : Bool → JValue
  | obj : List (String × JValue) → JValue

/-- First-match lookup in a JavaScript object (association list). -/
def oget : List (String × JValue) → String → Option JValue
  | [], _ => none
  | kv :: rest, key => if kv.1 = key then some kv.2 else oget rest key

/-- JavaScript property write: if the key exists (at most once, as in any
JavaScript object) its value is replaced in place, keeping its position;
otherwise the pair is appended at the end. -/
def oset : List (String × JValue) → String → JValue → List (String × JValue)
  | [], key, w => [(key, w)]
  | kv :: rest, key, w =>
    if kv.1 = key then (key, w) :: rest else kv :: oset rest key w

/-- lodash assign of one source object onto a target: every own property of
the source is written onto the target, shallowly (later write wins). -/
def assignObj (a b : List (String × JValue)) : List (String × JValue) :=
  b.foldl (fun acc kv => oset acc kv.1 kv.2) a

/-- Last-match lookup: the value of the last pair carrying the key, mirroring
the effect of writing a pair list into a fresh object in order. -/
def lastget : List (String × JValue) → String → Option JValue
  | [], _ => none
  | kv :: rest, key =>
    match lastget rest key with
    | some w => some w
    | none => if kv.1 = key then some kv.2 else none

/-- lodash object() / zipObject: build a fresh object from a pair list, in
order, so that on duplicate keys the later pair wins. -/
def objectOfPairs (l : List (String × JValue)) : List (String × JValue) :=
  assignObj [] l

/-- Own enumerable properties of a value used as an assign/merge source; a
non-object contributes none (file contents are structured objects). -/
def toObj : JValue → List (String × JValue)
  | .obj a => a
  | _ => []

mutual
/-- lodash merge of a source value (second argument) into a target value:
when both are objects they are merged recursively per key, otherwise the
source value replaces the target. -/
def mergeVal : JValue → JValue → JValue
  | JValue.obj a, JValue.obj b =>
      JValue.obj (mergeLeft a b ++ b.filter (fun kv => (oget a kv.1).isNone))
  | _, w => w
termination_by x _ => sizeOf x

/-- The target's pairs after a lodash merge: each keeps its position; a pair
whose key also occurs in the source gets the recursively merged value. -/
def mergeLeft : List (String × JValue) → List (String × JValue) →
    List (String × JValue)
  | [], _ => []
  | (k, v) :: rest, b =>
      (k, match oget b k with
          | some w => mergeVal v w
          | none => v) :: mergeLeft rest b
termination_by a _ => sizeOf a
end

/-- unflatten from google.js: turns a key list and a value into a single-path
nested object, {k1: {k2: ... {kn: value}}}.  The JavaScript function indexes
keys[0] unconditionally; the empty-list branch below stands for that
out-of-bounds access and is shown unreachable in the pipeline (claim C9). -/
def unflatten : List String → JValue → JValue
  | [], _ => JValue.obj []
  | [k], v => JValue.obj [(k, v)]
  | k :: k2 :: rest, v => JValue.obj [(k, unflatten (k2 :: rest) v)]

/-- Split a character list on the hyphen character, as JavaScript
String.prototype.split: always at least one (possibly empty) group. -/
def splitOnHyphen : List Char → List (List Char)
  | [] => [[]]
  | c :: cs =>
    if c = '-' then [] :: splitOnHyphen cs
    else
      match splitOnHyphen cs with
      | [] => [[c]]
      | g :: gs => (c :: g) :: gs

/-- k.split('-') from google.js. -/
def splitKey (s : String) : List String :=
  (splitOnHyphen s.data).map (fun l => String.mk l)

/-- Read the value stored in a tree at a key path (none when absent). -/
def getPath : JValue → List String → Option JValue
  | t, [] => some t
  | JValue.obj a, k :: rest =>
    (match oget a k with
     | some v => getPath v rest
     | none => none)
  | _, _ :: _ => none

/-- Case-sensitive literal pattern match at the start of a name, returning
the remaining characters: the regex ^npm_package_config_(.*) capture. -/
def stripCS : List Char → List Char → Option (List Char)
  | [], s => some s
  | _ :: _, [] => none
  | p :: ps, c :: cs => if c = p then stripCS ps cs else none

/-- Case-insensitive literal pattern match at the start of a name, returning
the remaining characters verbatim: the regex ^ghost_(.*) with the i flag. -/
def stripCI : List Char → List Char → Option (List Char)
  | [], s => some s
  | _ :: _, [] => none
  | p :: ps, c :: cs => if c.toLower = p.toLower then stripCI ps cs else none

/-- The first environment pattern of google.js, /^npm_package_config_(.*)/ :
case-sensitive match, capture is the rest of the name. -/
def npmMatch (s : String) : Option String :=
  match stripCS "npm_package_config_".data s.data with
  | some suf => some (String.mk suf)
  | none => none

/-- The second environment pattern of google.js, /^ghost_(.*)/i :
case-insensitive on the literal, capture is the rest of the name verbatim. -/
def ghostMatch (s : String) : Option String :=
  match stripCI "ghost_".data s.data with
  | some suf => some (String.mk suf)
  | none => none

/-- suffix.replace(underscore-globally, hyphen) from google.js. -/
def underToHyphen (s : String) : String :=
  String.mk (s.data.map (fun c => if c = '_' then '-' else c))

/-- The pairs produced by one environment pattern: pick the matching names in
environment order, derive the key from the capture with underscores turned
into hyphens, keep the raw value. -/
def envMatchPairs (m : String → Option String)
    (env : List (String × String)) : List (String × JValue) :=
  env.filterMap (fun kv =>
    match m kv.1 with
    | some suf => some (underToHyphen suf, JValue.prim kv.2)
    | none => none)

/-- envParams from google.js: each pattern's pairs are zipped into an object
(later pair wins within a pattern) and the ghost-pattern object is assigned
over the npm-pattern object, so the ghost pattern has higher priority. -/
def envParams (env : List (String × String)) : List (String × JValue) :=
  assignObj (objectOfPairs (envMatchPairs npmMatch env))
            (objectOfPairs (envMatchPairs ghostMatch env))

/-- Whether a command-line token is a double-dashed flag. -/
def isFlagTok (s : String) : Bool :=
  match s.data with
  | c1 :: c2 :: _ => c1 = '-' && c2 = '-'
  | _ => false

/-- Whether a command-line token begins with a dash. -/
def isDashTok (s : String) : Bool :=
  match s.data with
  | c :: _ => c = '-'
  | _ => false

/-- The flag name of a double-dashed token body: the characters before the
first equals sign. -/
def flagKey (body : List Char) : String :=
  String.mk (body.takeWhile (fun c => ¬ c = '='))

/-- The flag value of a double-dashed token body: the characters after the
first equals sign. -/
def flagVal (body : List Char) : String :=
  String.mk ((body.dropWhile (fun c => ¬ c = '=')).drop 1)

/-- Modelled from the spec: the external minimist argument parser, which is
not part of this repository.  Per the spec, double-dashed tokens are flags
in the forms --key=value, --key value (the next token, when it is not itself
dashed, is the value) and bare --key (boolean true); all other non-dashed
tokens are positional.  Single-dashed short options and minimist's
repeated-flag arrays and numeric coercion are outside the modelled subset,
which covers every shape the specification describes.  Returns the
positional list (minimist's underscore property) and the flag pairs in
order. -/
def minimist : List String → List String × List (String × JValue)
  | [] => ([], [])
  | tok :: rest =>
    if isFlagTok tok then
      let body := tok.data.drop 2
      if body.any (fun c => c = '=') then
        let r := minimist rest
        (r.1, (flagKey body, JValue.prim (flagVal body)) :: r.2)
      else
        match rest with
        | next :: rest2 =>
          if isDashTok next then
            let r := minimist (next :: rest2)
            (r.1, (flagKey body, JValue.bool true) :: r.2)
          else
            let r := minimist rest2
            (r.1, (flagKey body, JValue.prim next) :: r.2)
        | [] => ([], [(flagKey body, JValue.bool true)])
    else if isDashTok tok then minimist rest
    else
      let r := minimist rest
      (tok :: r.1, r.2)

/-- Modelled from the spec: path resolution for positional file arguments
(node's path module is not part of this repository).  An absolute path is
used as given; a relative one is joined to the current working directory. -/
def resolvePath (cwd arg : String) : String :=
  match arg.data with
  | '/' :: _ => arg
  | _ => cwd ++ "/" ++ arg

/-- The ambient process state read by getConfigOverrides: the environment in
insertion order, the argument vector after the two invocation tokens, the
module loader as a partial map from resolved paths to loaded values (none
models a load that throws), and the working directory. -/
structure Ctx where
  env : List (String × String)
  argv : List String
  fs : String → Option JValue
  cwd : String

/-- Load every positional file argument in order; a single failing load
throws, so the whole step fails with no partial result. -/
def loadFiles (fs : String → Option JValue) (cwd : String) :
    List String → Except Unit (List JValue)
  | [] => .ok []
  | a :: rest =>
    match fs (resolvePath cwd a) with
    | none => .error ()
    | some v =>
      match loadFiles fs cwd rest with
      | .error e => .error e
      | .ok vs => .ok (v :: vs)

/-- jsonjsParams from google.js: lodash assign across the loaded file
objects, so later files shallowly override earlier ones per top-level key.
With no file arguments the assign yields nothing (undefined in JavaScript),
which contributes no pairs downstream, modelled as the empty object. -/
def filesObject : List JValue → List (String × JValue)
  | [] => []
  | v :: rest => rest.foldl (fun acc w => assignObj acc (toObj w)) (toObj v)

/-- The combined flat parameter object of google.js: a fresh object is
assigned envParams, then the file object, then the flag object, each
shallowly, so flags beat files beat environment variables per key. -/
def combinedParams (ctx : Ctx) : Except Unit (List (String × JValue)) :=
  match loadFiles ctx.fs ctx.cwd (minimist ctx.argv).1 with
  | .error e => .error e
  | .ok vs =>
    .ok (assignObj (assignObj (assignObj [] (envParams ctx.env))
                              (filesObject vs))
                   (objectOfPairs (minimist ctx.argv).2))

/-- lodash reduce(list, merge) with no seed: the first tree is the
accumulator; an empty list yields undefined (modelled as none). -/
def reduceMerge : List JValue → Option JValue
  | [] => none
  | t :: ts => some (ts.foldl mergeVal t)

/-- getConfigOverrides from google.js: build the combined flat parameters,
expand every pair through unflatten on its hyphen-split key, and deep-merge
the expansions.  An error is a thrown exception reaching the caller; ok none
is the undefined produced by reducing an empty list. -/
def getConfigOverrides (ctx : Ctx) : Except Unit (Option JValue) :=
  match combinedParams ctx with
  | .error e => .error e
  | .ok ps =>
    .ok (reduceMerge (ps.map (fun kv => unflatten (splitKey kv.1) kv.2)))

/-- Whether the first key path is an initial segment of the second. -/
def startsWithSeg : List String → List String → Bool
  | [], _ => true
  | _ :: _, [] => false
  | a :: as, b :: bs => a = b && startsWithSeg as bs

/-- Two key paths collide when one is an initial segment of the other;
disjoint paths address unrelated locations of an override tree. -/
def disjointPaths (p q : List String) : Bool :=
  !(startsWithSeg p q) && !(startsWithSeg q p)

/-! ### Lookup lemmas for the shallow object operations -/

theorem oget_append (a b : List (String × JValue)) (k : String) :
    oget (a ++ b) k =
      match oget a k with
      | some v => some v
      | none => oget b k := by
  induction a with
  | nil => simp [oget]
  | cons kv rest ih =>
    by_cases h : kv.1 = k <;> simp [oget, h, ih]

theorem oget_oset (l : List (String × JValue)) (key k : String) (w : JValue) :
    oget (oset l key w) k = if key = k then some w else oget l k := by
  induction l with
  | nil => simp [oset, oget]
  | cons kv rest ih =>
    by_cases hkey : kv.1 = key
    · by_cases hk : key = k
      · simp [oset, oget, hkey, hk]
      · have hkvk : ¬ kv.1 = k := fun h => hk (hkey.symm.trans h)
        simp [oset, oget, hkey, hk, hkvk]
    · by_cases hkvk : kv.1 = k
      · have hk : ¬ key = k := fun h => hkey (hkvk.trans h.symm)
        have hk2 : ¬ k = key := fun h => hk h.symm
        simp [oset, oget, hkey, hkvk, hk, hk2]
      · simp [oset, oget, hkey, hkvk, ih]

theorem oget_assignObj (a b : List (String × JValue)) (k : String) :
    oget (assignObj a b) k =
      match lastget b k with
      | some w => some w
      | none => oget a k := by
  induction b generalizing a with
  | nil => simp [assignObj, lastget]
  | cons kv rest ih =>
    show oget (assignObj (oset a kv.1 kv.2) rest) k = _
    rw [ih]
    cases hrest : lastget rest k with
    | some w => simp [lastget, hrest]
    | none =>
      by_cases hk : kv.1 = k
      · simp [lastget, hrest, hk, oget_oset]
      · have : ¬ kv.1 = k := hk
        simp [lastget, hrest, this, oget_oset]

theorem oget_objectOfPairs (l : List (String × JValue)) (k : String) :
    oget (objectOfPairs l) k = lastget l k := by
  unfold objectOfPairs
  rw [oget_assignObj]
  cases h : lastget l k <;> simp [oget]

/-! ### Lookup lemmas for the deep merge -/

theorem mergeVal_obj_obj (a b : List (String × JValue)) :
    mergeVal (JValue.obj a) (JValue.obj b) =
      JValue.obj (mergeLeft a b ++
                  b.filter (fun kv => (oget a kv.1).isNone)) := by
  simp [mergeVal]

theorem mergeVal_prim_right (x : JValue) (s : String) :
    mergeVal x (JValue.prim s) = JValue.prim s := by
  cases x <;> simp [mergeVal]

theorem mergeVal_prim_left (s : String) (w : JValue) :
    mergeVal (JValue.prim s) w = w := by
  cases w <;> simp [mergeVal]

theorem oget_mergeLeft (a b : List (String × JValue)) (k : String) :
    oget (mergeLeft a b) k =
      match oget a k with
      | some v =>
        some (match oget b k with
              | some w => mergeVal v w
              | none => v)
      | none => none := by
  induction a with
  | nil => simp [mergeLeft, oget]
  | cons kv rest ih =>
    obtain ⟨ka, va⟩ := kv
    by_cases hk : ka = k
    · subst hk
      simp [mergeLeft, oget]
    · simp [mergeLeft, oget, hk, ih]

theorem oget_filter_isNone (a b : List (String × JValue)) (k : String) :
    oget (b.filter (fun kv => (oget a kv.1).isNone)) k =
      if (oget a k).isNone then oget b k else none := by
  induction b with
  | nil => simp [oget]
  | cons kv rest ih =>
    by_cases hk : kv.1 = k
    · cases hp : (oget a k).isNone
      · have : (oget a kv.1).isNone = false := by rw [hk]; exact hp
        simp [List.filter_cons, this, ih, hp, hk]
      · have : (oget a kv.1).isNone = true := by rw [hk]; exact hp
        simp [List.filter_cons, this, oget, hk, hp]
    · cases hp : (oget a kv.1).isNone <;>
        simp [List.filter_cons, hp, oget, hk, ih]

theorem oget_mergeObjs (a b : List (String × JValue)) (k : String) :
    oget (mergeLeft a b ++ b.filter (fun kv => (oget a kv.1).isNone)) k =
      match oget a k, oget b k with
      | some v, some w => some (mergeVal v w)
      | some v, none => some v
      | none, ow => ow := by
  rw [oget_append, oget_mergeLeft, oget_filter_isNone]
  cases oget a k <;> cases oget b k <;> simp

theorem mergeVal_bool_right (x : JValue) (b : Bool) :
    mergeVal x (JValue.bool b) = JValue.bool b := by
  cases x <;> simp [mergeVal]

theorem mergeVal_bool_left (b : Bool) (w : JValue) :
    mergeVal (JValue.bool b) w = w := by
  cases w <;> simp [mergeVal]

/-! ### Key paths: expansion round trip and disjointness -/

theorem getPath_unflatten_self (ks : List String) (v : JValue) (h : ks ≠ []) :
    getPath (unflatten ks v) ks = some v := by
  induction ks with
  | nil => cases h rfl
  | cons k rest ih =>
    cases rest with
    | nil => simp [unflatten, getPath, oget]
    | cons k2 rest2 =>
      have ih2 := ih (by simp)
      simp [unflatten, getPath, oget, ih2]

theorem disjointPaths_ne_nil {p q : List String}
    (h : disjointPaths p q = true) : p ≠ [] ∧ q ≠ [] := by
  constructor
  · rintro rfl; simp [disjointPaths, startsWithSeg] at h
  · rintro rfl; simp [disjointPaths, startsWithSeg] at h

theorem disjointPaths_symm {p q : List String}
    (h : disjointPaths p q = true) : disjointPaths q p = true := by
  simp only [disjointPaths, Bool.and_eq_true, Bool.not_eq_true'] at h ⊢
  exact ⟨h.2, h.1⟩

theorem disjointPaths_of_cons {a : String} {p q : List String}
    (h : disjointPaths (a :: p) (a :: q) = true) :
    disjointPaths p q = true := by
  simpa [disjointPaths, startsWithSeg] using h

theorem getPath_unflatten_disjoint (q p : List String) (w : JValue)
    (h : disjointPaths p q = true) : getPath (unflatten q w) p = none := by
  induction q generalizing p with
  | nil => exact absurd rfl (disjointPaths_ne_nil h).2
  | cons b q' ih =>
    obtain ⟨hp, -⟩ := disjointPaths_ne_nil h
    cases p with
    | nil => cases hp rfl
    | cons a p' =>
      by_cases hab : a = b
      · subst hab
        have h' : disjointPaths p' q' = true := disjointPaths_of_cons h
        obtain ⟨hp', hq'⟩ := disjointPaths_ne_nil h'
        cases q' with
        | nil => cases hq' rfl
        | cons c q'' =>
          simp only [unflatten, getPath, oget, if_pos rfl]
          exact ih p' h'
      · have hba : ¬ b = a := fun hh => hab hh.symm
        cases q' with
        | nil => simp [unflatten, getPath, oget, hba]
        | cons c q'' => simp [unflatten, getPath, oget, hba]

theorem getPath_mergeVal_chain_other (p : List String) (t : JValue)
    (q : List String) (v : JValue) (h : disjointPaths p q = true) :
    getPath (mergeVal t (unflatten p v)) q = getPath t q := by
  induction p generalizing q t with
  | nil => exact absurd rfl (disjointPaths_ne_nil h).1
  | cons b p' ih =>
    obtain ⟨-, hq⟩ := disjointPaths_ne_nil h
    cases q with
    | nil => cases hq rfl
    | cons c q' =>
      cases t with
      | prim s =>
        rw [mergeVal_prim_left, getPath_unflatten_disjoint _ _ _
              (disjointPaths_symm h)]
        simp [getPath]
      | bool bb =>
        rw [mergeVal_bool_left, getPath_unflatten_disjoint _ _ _
              (disjointPaths_symm h)]
        simp [getPath]
      | obj a =>
        by_cases hcb : c = b
        · subst hcb
          have h' : disjointPaths p' q' = true := by
            have := disjointPaths_symm (disjointPaths_of_cons
              (disjointPaths_symm h))
            exact this
          obtain ⟨hp', hq'⟩ := disjointPaths_ne_nil h'
          cases p' with
          | nil => cases hp' rfl
          | cons d p'' =>
            rw [show unflatten (c :: d :: p'') v =
                  JValue.obj [(c, unflatten (d :: p'') v)] from rfl,
                mergeVal_obj_obj]
            show getPath _ (c :: q') = _
            simp only [getPath, oget_mergeObjs]
            have hog : oget [(c, unflatten (d :: p'') v)] c =
                some (unflatten (d :: p'') v) := by simp [oget]
            rw [hog]
            cases hac : oget a c with
            | none =>
              simp only
              rw [getPath_unflatten_disjoint _ _ _ (disjointPaths_symm h')]
            | some u =>
              simp only
              exact ih u q' h'
        · cases p' with
          | nil =>
            rw [show unflatten [b] v = JValue.obj [(b, v)] from rfl,
                mergeVal_obj_obj]
            simp only [getPath, oget_mergeObjs]
            have hog : oget [(b, v)] c = none := by simp [oget, Ne.symm hcb]
            rw [hog]
            cases oget a c <;> simp
          | cons d p'' =>
            rw [show unflatten (b :: d :: p'') v =
                  JValue.obj [(b, unflatten (d :: p'') v)] from rfl,
                mergeVal_obj_obj]
            simp only [getPath, oget_mergeObjs]
            have hog : oget [(b, unflatten (d :: p'') v)] c = none := by
              simp [oget, Ne.symm hcb]
            rw [hog]
            cases oget a c <;> simp

theorem getPath_chain_mergeVal_other (p : List String) (t : JValue)
    (q : List String) (v : JValue) (h : disjointPaths p q = true) :
    getPath (mergeVal (unflatten p v) t) q = getPath t q := by
  induction p generalizing q t with
  | nil => exact absurd rfl (disjointPaths_ne_nil h).1
  | cons b p' ih =>
    obtain ⟨-, hq⟩ := disjointPaths_ne_nil h
    cases q with
    | nil => cases hq rfl
    | cons c q' =>
      cases t with
      | prim s => rw [mergeVal_prim_right]
      | bool bb => rw [mergeVal_bool_right]
      | obj blist =>
        have hshape : ∃ X, unflatten (b :: p') v = JValue.obj [(b, X)] ∧
            (p' = [] ∧ X = v ∨ p' ≠ [] ∧ X = unflatten p' v) := by
          cases p' with
          | nil => exact ⟨v, rfl, Or.inl ⟨rfl, rfl⟩⟩
          | cons d p'' =>
            exact ⟨unflatten (d :: p'') v, rfl, Or.inr ⟨by simp, rfl⟩⟩
        obtain ⟨X, hX, hXv⟩ := hshape
        rw [hX, mergeVal_obj_obj]
        simp only [getPath, oget_mergeObjs]
        by_cases hcb : c = b
        · subst hcb
          have h' : disjointPaths p' q' = true := by
            exact disjointPaths_symm (disjointPaths_of_cons
              (disjointPaths_symm h))
          obtain ⟨hp', hq'⟩ := disjointPaths_ne_nil h'
          have hog : oget [(c, X)] c = some X := by simp [oget]
          rw [hog]
          rcases hXv with ⟨hnil, -⟩ | ⟨-, hXv⟩
          · cases hp' hnil
          · subst hXv
            cases hbc : oget blist c with
            | none =>
              simp only
              rw [getPath_unflatten_disjoint _ _ _ (disjointPaths_symm h')]
            | some u =>
              simp only
              exact ih u q' h'
        · have hog : oget [(b, X)] c = none := by simp [oget, Ne.symm hcb]
          cases hbc : oget blist c <;> simp [hog, hbc]

theorem getPath_mergeVal_write (p : List String) (t : JValue) (v : JValue)
    (hp : p ≠ []) (h : getPath t p = none) :
    getPath (mergeVal t (unflatten p v)) p = some v := by
  induction p generalizing t with
  | nil => cases hp rfl
  | cons b p' ih =>
    cases t with
    | prim s => rw [mergeVal_prim_left]; exact getPath_unflatten_self _ _ hp
    | bool bb => rw [mergeVal_bool_left]; exact getPath_unflatten_self _ _ hp
    | obj a =>
      cases p' with
      | nil =>
        have hab : oget a b = none := by
          by_contra hc
          cases hog : oget a b with
          | none => exact hc hog
          | some u => simp [getPath, hog] at h
        rw [show unflatten [b] v = JValue.obj [(b, v)] from rfl,
            mergeVal_obj_obj]
        simp only [getPath, oget_mergeObjs, hab]
        simp [oget]
      | cons d p'' =>
        rw [show unflatten (b :: d :: p'') v =
              JValue.obj [(b, unflatten (d :: p'') v)] from rfl,
            mergeVal_obj_obj]
        simp only [getPath, oget_mergeObjs]
        have hog : oget [(b, unflatten (d :: p'') v)] b =
            some (unflatten (d :: p'') v) := by simp [oget]
        rw [hog]
        cases hab : oget a b with
        | none =>
          simp only
          exact getPath_unflatten_self _ _ (by simp)
        | some u =>
          simp only
          have hu : getPath u (d :: p'') = none := by
            simpa [getPath, hab] using h
          exact ih u (by simp) hu

/-- The value of a tree at a path is an object or absent: the shape of every
interior node along a longer path.  A lodash merge never turns such a node
into a scalar unless a source writes a scalar there. -/
def objOrAbsentAt (t : JValue) (pfx : List String) : Prop :=
  match getPath t pfx with
  | some (JValue.obj _) => True
  | none => True
  | _ => False

theorem startsWithSeg_take (q p : List String) (n : Nat)
    (h : startsWithSeg q (p.take n) = true) : startsWithSeg q p = true := by
  induction q generalizing p n with
  | nil => simp [startsWithSeg]
  | cons a q' ih =>
    cases n with
    | zero => simp [startsWithSeg] at h
    | succ m =>
      cases p with
      | nil => simp [startsWithSeg] at h
      | cons b p' =>
        simp only [List.take_succ_cons, startsWithSeg,
          Bool.and_eq_true] at h ⊢
        exact ⟨h.1, ih p' m h.2⟩

theorem unflatten_objOrAbsentAt (q : List String) (w : JValue)
    (pfx : List String) (h : startsWithSeg q pfx = false) :
    objOrAbsentAt (unflatten q w) pfx := by
  induction q generalizing pfx with
  | nil => cases pfx <;> simp [objOrAbsentAt, unflatten, getPath, oget]
  | cons b q' ih =>
    cases pfx with
    | nil =>
      cases q' <;> simp [objOrAbsentAt, unflatten, getPath]
    | cons k pfx' =>
      by_cases hkb : b = k
      · subst hkb
        have hq' : startsWithSeg q' pfx' = false := by
          simpa [startsWithSeg] using h
        cases q' with
        | nil => simp [startsWithSeg] at hq'
        | cons c q'' =>
          have := ih pfx' hq'
          simpa [objOrAbsentAt, unflatten, getPath, oget] using this
      · cases q' <;> simp [objOrAbsentAt, unflatten, getPath, oget, hkb]

theorem objOrAbsentAt_mergeVal (pfx : List String) (t1 t2 : JValue)
    (h1 : objOrAbsentAt t1 pfx) (h2 : objOrAbsentAt t2 pfx) :
    objOrAbsentAt (mergeVal t1 t2) pfx := by
  induction pfx generalizing t1 t2 with
  | nil =>
    simp only [objOrAbsentAt, getPath] at h1 h2 ⊢
    cases t1 <;> cases t2 <;>
      simp_all [mergeVal_prim_left, mergeVal_prim_right, mergeVal_bool_left,
        mergeVal_bool_right, mergeVal_obj_obj]
  | cons k pfx' ih =>
    cases t2 with
    | prim s =>
      rw [mergeVal_prim_right]; exact h2
    | bool b =>
      rw [mergeVal_bool_right]; exact h2
    | obj b =>
      cases t1 with
      | prim s => rw [mergeVal_prim_left]; exact h2
      | bool bb => rw [mergeVal_bool_left]; exact h2
      | obj a =>
        rw [mergeVal_obj_obj]
        simp only [objOrAbsentAt, getPath, oget_mergeObjs] at h1 h2 ⊢
        cases ha : oget a k with
        | none =>
          cases hb : oget b k with
          | none => simp
          | some w => rw [hb] at h2; simpa using h2
        | some u =>
          cases hb : oget b k with
          | none => rw [ha] at h1; simpa using h1
          | some w =>
            rw [ha] at h1; rw [hb] at h2
            have := ih u w (by simpa [objOrAbsentAt] using h1)
              (by simpa [objOrAbsentAt] using h2)
            simpa [objOrAbsentAt] using this

theorem getPath_chain_mergeVal_write (p : List String) (t : JValue)
    (v : JValue) (hp : p ≠ []) (hnone : getPath t p = none)
    (hobj : ∀ n, n < p.length → objOrAbsentAt t (p.take n)) :
    getPath (mergeVal (unflatten p v) t) p = some v := by
  induction p generalizing t with
  | nil => cases hp rfl
  | cons b p' ih =>
    have h0 := hobj 0 (by simp)
    cases t with
    | prim s => simp [objOrAbsentAt, getPath] at h0
    | bool bb => simp [objOrAbsentAt, getPath] at h0
    | obj blist =>
      have hshape : ∃ X, unflatten (b :: p') v = JValue.obj [(b, X)] ∧
          (p' = [] ∧ X = v ∨ p' ≠ [] ∧ X = unflatten p' v) := by
        cases p' with
        | nil => exact ⟨v, rfl, Or.inl ⟨rfl, rfl⟩⟩
        | cons d p'' =>
          exact ⟨unflatten (d :: p'') v, rfl, Or.inr ⟨by simp, rfl⟩⟩
      obtain ⟨X, hX, hXv⟩ := hshape
      rw [hX, mergeVal_obj_obj]
      show getPath _ (b :: p') = _
      simp only [getPath, oget_mergeObjs]
      have hog : oget [(b, X)] b = some X := by simp [oget]
      rw [hog]
      cases hbb : oget blist b with
      | none =>
        simp only
        rcases hXv with ⟨hnil, hXv⟩ | ⟨hne, hXv⟩
        · subst hnil; subst hXv; simp [getPath]
        · subst hXv; exact getPath_unflatten_self _ _ hne
      | some u =>
        simp only
        rcases hXv with ⟨hnil, -⟩ | ⟨hne, hXv⟩
        · subst hnil
          simp [getPath, hbb] at hnone
        · subst hXv
          have hu : getPath u p' = none := by
            simpa [getPath, hbb] using hnone
          have huobj : ∀ n, n < p'.length → objOrAbsentAt u (p'.take n) := by
            intro n hn
            have := hobj (n + 1) (by simpa using Nat.succ_lt_succ hn)
            simpa [objOrAbsentAt, getPath, hbb] using this
          cases u with
          | prim s =>
            exfalso
            have h1 := hobj 1 (by
              cases p' with
              | nil => cases hne rfl
              | cons d p'' => simp)
            simp [objOrAbsentAt, getPath, hbb, List.take] at h1
          | bool s =>
            exfalso
            have h1 := hobj 1 (by
              cases p' with
              | nil => cases hne rfl
              | cons d p'' => simp)
            simp [objOrAbsentAt, getPath, hbb, List.take] at h1
          | obj ulist =>
            exact ih (JValue.obj ulist) hne hu huobj

/-! ### Pipeline lemmas: keys, uniqueness, argument parsing, file loading -/

theorem splitOnHyphen_ne_nil (l : List Char) : splitOnHyphen l ≠ [] := by
  induction l with
  | nil => simp [splitOnHyphen]
  | cons c cs ih =>
    by_cases hc : c = '-'
    · simp [splitOnHyphen, hc]
    · cases hs : splitOnHyphen cs with
      | nil => exact absurd hs ih
      | cons g gs => simp [splitOnHyphen, hc, hs]

theorem splitKey_ne_nil (s : String) : splitKey s ≠ [] := by
  simp only [splitKey, ne_eq, List.map_eq_nil_iff]
  exact splitOnHyphen_ne_nil _

/-- The keys of an object, in order. -/
def keysOf (l : List (String × JValue)) : List String :=
  l.map (fun kv => kv.1)

theorem lastget_eq_none_of_not_mem (l : List (String × JValue)) (k : String)
    (h : ¬ k ∈ keysOf l) : lastget l k = none := by
  induction l with
  | nil => simp [lastget]
  | cons kv rest ih =>
    simp only [keysOf, List.map_cons, List.mem_cons] at h
    push_neg at h
    have h1 : ¬ kv.1 = k := fun hh => h.1 hh.symm
    have h2 := ih (by simpa [keysOf] using h.2)
    simp [lastget, h1, h2]

theorem lastget_eq_oget_of_nodup (l : List (String × JValue)) (k : String)
    (h : (keysOf l).Nodup) : lastget l k = oget l k := by
  induction l with
  | nil => simp [lastget, oget]
  | cons kv rest ih =>
    simp only [keysOf, List.map_cons, List.nodup_cons] at h
    by_cases hk : kv.1 = k
    · subst hk
      have : lastget rest kv.1 = none :=
        lastget_eq_none_of_not_mem rest kv.1 (by simpa [keysOf] using h.1)
      simp [lastget, oget, this]
    · have hr := ih (by simpa [keysOf] using h.2)
      simp only [lastget, oget, hk, if_false, hr]
      cases oget rest k <;> simp

theorem mem_keysOf_oset (l : List (String × JValue)) (key k : String)
    (w : JValue) (h : k ∈ keysOf (oset l key w)) :
    k ∈ keysOf l ∨ k = key := by
  induction l with
  | nil => simpa [oset, keysOf] using h
  | cons kv rest ih =>
    by_cases hkey : kv.1 = key
    · simp only [oset, hkey, if_true, keysOf, List.map_cons,
        List.mem_cons] at h ⊢
      rcases h with h | h
      · exact Or.inr h
      · exact Or.inl (Or.inr h)
    · simp only [oset, hkey, if_false, keysOf, List.map_cons,
        List.mem_cons] at h ⊢
      rcases h with h | h
      · exact Or.inl (Or.inl h)
      · rcases ih (by simpa [keysOf] using h) with h2 | h2
        · exact Or.inl (Or.inr (by simpa [keysOf] using h2))
        · exact Or.inr h2

theorem keysOf_oset_nodup (l : List (String × JValue)) (key : String)
    (w : JValue) (h : (keysOf l).Nodup) : (keysOf (oset l key w)).Nodup := by
  induction l with
  | nil => simp [oset, keysOf]
  | cons kv rest ih =>
    simp only [keysOf, List.map_cons, List.nodup_cons] at h
    by_cases hkey : kv.1 = key
    · simp only [oset, hkey, if_true, keysOf, List.map_cons, List.nodup_cons]
      refine ⟨?_, by simpa [keysOf] using h.2⟩
      rw [← hkey]
      simpa [keysOf] using h.1
    · simp only [oset, hkey, if_false, keysOf, List.map_cons,
        List.nodup_cons]
      constructor
      · intro hmem
        rcases mem_keysOf_oset rest key kv.1 w (by simpa [keysOf] using hmem)
          with h2 | h2
        · exact h.1 (by simpa [keysOf] using h2)
        · exact hkey h2
      · exact ih (by simpa [keysOf] using h.2)

theorem keysOf_assignObj_nodup (b a : List (String × JValue))
    (h : (keysOf a).Nodup) : (keysOf (assignObj a b)).Nodup := by
  induction b generalizing a with
  | nil => exact h
  | cons kv rest ih =>
    show ((keysOf (assignObj (oset a kv.1 kv.2) rest))).Nodup
    exact ih _ (keysOf_oset_nodup _ _ _ h)

theorem lastget_objectOfPairs (l : List (String × JValue)) (k : String) :
    lastget (objectOfPairs l) k = lastget l k := by
  unfold objectOfPairs
  rw [lastget_eq_oget_of_nodup _ _ (keysOf_assignObj_nodup l [] (by
        simp [keysOf]))]
  exact oget_objectOfPairs l k

theorem isFlagTok_eq_false (tok : String) (h : isDashTok tok = false) :
    isFlagTok tok = false := by
  unfold isDashTok at h
  unfold isFlagTok
  cases hd : tok.data with
  | nil => rfl
  | cons c cs =>
    rw [hd] at h
    simp only at h
    cases cs with
    | nil => rfl
    | cons c2 cs2 => simp [h]

theorem minimist_cons_plain (tok : String) (rest : List String)
    (h : isDashTok tok = false) :
    minimist (tok :: rest) = (tok :: (minimist rest).1, (minimist rest).2) := by
  simp [minimist, isFlagTok_eq_false tok h, h]

theorem loadFiles_error (fs : String → Option JValue) (cwd : String)
    (ps : List String) (p : String) (hmem : p ∈ ps)
    (hf : fs (resolvePath cwd p) = none) : loadFiles fs cwd ps = .error () := by
  induction ps with
  | nil => simp at hmem
  | cons a rest ih =>
    rcases List.mem_cons.mp hmem with rfl | hmem2
    · simp [loadFiles, hf]
    · cases hfa : fs (resolvePath cwd a) with
      | none => simp [loadFiles, hfa]
      | some v => simp [loadFiles, hfa, ih hmem2]

theorem envMatchPairs_eq_nil (m : String → Option String)
    (env : List (String × String)) (h : ∀ kv ∈ env, m kv.1 = none) :
    envMatchPairs m env = [] := by
  induction env with
  | nil => rfl
  | cons kv rest ih =>
    have h1 := h kv (by simp)
    have h2 := ih (fun kv2 hm => h kv2 (by simp [hm]))
    simp [envMatchPairs, h1] at h2 ⊢
    exact h2

theorem stripCI_append (pat : List Char) :
    ∀ (pre suf : List Char),
      pre.map Char.toLower = pat.map Char.toLower →
      stripCI pat (pre ++ suf) = some suf := by
  induction pat with
  | nil =>
    intro pre suf h
    simp only [List.map_nil, List.map_eq_nil_iff] at h
    subst h
    simp [stripCI]
  | cons p ps ih =>
    intro pre suf h
    cases pre with
    | nil => simp at h
    | cons c cs =>
      simp only [List.map_cons, List.cons.injEq] at h
      simp [stripCI, h.1, ih cs suf h.2]

theorem map_no_underscore_id (l : List Char) (h : ∀ c ∈ l, ¬ c = '_') :
    l.map (fun c => if c = '_' then '-' else c) = l := by
  induction l with
  | nil => rfl
  | cons c cs ih =>
    have h1 := h c (by simp)
    simp [h1, ih (fun c2 hm => h c2 (by simp [hm]))]

theorem getPath_mergeVal_none (p : List String) (t1 t2 : JValue)
    (h1 : getPath t1 p = none) (h2 : getPath t2 p = none) :
    getPath (mergeVal t1 t2) p = none := by
  induction p generalizing t1 t2 with
  | nil => simp [getPath] at h1
  | cons k p' ih =>
    cases t2 with
    | prim s => rw [mergeVal_prim_right]; exact h2
    | bool b => rw [mergeVal_bool_right]; exact h2
    | obj b =>
      cases t1 with
      | prim s => rw [mergeVal_prim_left]; exact h2
      | bool bb => rw [mergeVal_bool_left]; exact h2
      | obj a =>
        rw [mergeVal_obj_obj]
        simp only [getPath, oget_mergeObjs]
        cases ha : oget a k with
        | none =>
          cases hb : oget b k with
          | none => simp
          | some w => simpa [getPath, hb] using h2
        | some u =>
          cases hb : oget b k with
          | none => simpa [getPath, ha] using h1
          | some w =>
            simp only
            exact ih u w (by simpa [getPath, ha] using h1)
              (by simpa [getPath, hb] using h2)

theorem disjointPaths_components {p q : List String}
    (h : disjointPaths p q = true) :
    startsWithSeg p q = false ∧ startsWithSeg q p = false := by
  simp only [disjointPaths, Bool.and_eq_true, Bool.not_eq_true'] at h
  exact h

/-- Whenever the flag object carries a key, the combined flat parameter
object carries the flag's value for that key: the final shallow assign puts
the flag object last. -/
theorem flags_priority (ctx : Ctx) (ps : List (String × JValue)) (k : String)
    (v : JValue) (hps : combinedParams ctx = .ok ps)
    (hflag : oget (objectOfPairs (minimist ctx.argv).2) k = some v) :
    oget ps k = some v := by
  unfold combinedParams at hps
  cases hlf : loadFiles ctx.fs ctx.cwd (minimist ctx.argv).1 with
  | error e => rw [hlf] at hps; cases hps
  | ok vs =>
    rw [hlf] at hps
    injection hps with hps2
    subst hps2
    have hl : lastget (minimist ctx.argv).2 k = some v := by
      rw [← oget_objectOfPairs]; exact hflag
    rw [oget_assignObj, lastget_objectOfPairs, hl]

/-! ### The claims -/

/-- The end-to-end example context of claim C1: the same derived key
database-connection-password supplied by an npm-prefixed environment
variable, a ghost-prefixed environment variable, and a double-dashed flag. -/
def exCtxC1 : Ctx where
  env := [("npm_package_config_database_connection_password", "secret1"),
          ("GHOST_database-connection-password", "secret2")]
  argv := ["--database-connection-password=secret3"]
  fs := fun _ => none
  cwd := "/"

/-- A context with no matching environment variable, no flags and no
positional file arguments. -/
def emptyCtx : Ctx where
  env := [("PATH", "/bin")]
  argv := []
  fs := fun _ => none
  cwd := ""

/-- A loader with one file defining the hyphenated top-level key a-b. -/
def fsTopHyphen : String → Option JValue := fun s =>
  if s = "/cfg" then some (JValue.obj [("a-b", JValue.prim "x")]) else none

/-- A context whose single positional file defines the top-level key a-b. -/
def ctxTopHyphen : Ctx where
  env := []
  argv := ["cfg"]
  fs := fsTopHyphen
  cwd := ""

/-- A loader with one file nesting a hyphenated key below the top level. -/
def fsNested : String → Option JValue := fun s =>
  if s = "/cfg" then
    some (JValue.obj [("a", JValue.obj [("b-c", JValue.prim "x")])])
  else none

/-- A context whose single positional file nests the key b-c under a. -/
def ctxNested : Ctx where
  env := []
  argv := ["cfg"]
  fs := fsNested
  cwd := ""

/-- A loader with two files both defining the top-level key a. -/
def fsTwoFiles : String → Option JValue := fun s =>
  if s = "/f1" then
    some (JValue.obj [("a", JValue.obj [("x", JValue.prim "1")])])
  else if s = "/f2" then
    some (JValue.obj [("a", JValue.obj [("y", JValue.prim "2")])])
  else none

/-- A context carrying a single flag z=9 and nothing else. -/
def ctxFlagZ : Ctx where
  env := []
  argv := ["--z=9"]
  fs := fun _ => none
  cwd := ""

/-- A context referencing a positional file path that fails to load. -/
def ctxMissing : Ctx where
  env := []
  argv := ["missing"]
  fs := fun _ => none
  cwd := ""

/-- A context with one ghost-prefixed environment variable. -/
def ctxGhostA : Ctx where
  env := [("ghost_a", "1")]
  argv := []
  fs := fun _ => none
  cwd := ""

/-- Claim C1: end-to-end source precedence.  With
npm_package_config_database_connection_password=secret1,
GHOST_database-connection-password=secret2 and flag
--database-connection-password=secret3 all present, getConfigOverrides
returns a tree whose value at path [database, connection, password] is
secret3; and in general, for every derived key present in the flag object,
the flag's value is the one in the combined flat mapping, overriding the
environment-variable and file values. -/
theorem claim_c1_flag_precedence (ctx : Ctx) (ps : List (String × JValue))
    (k : String) (v : JValue) (hps : combinedParams ctx = .ok ps)
    (hflag : oget (objectOfPairs (minimist ctx.argv).2) k = some v) :
    getConfigOverrides exCtxC1 =
      .ok (some (JValue.obj [("database", JValue.obj [("connection",
        JValue.obj [("password", JValue.prim "secret3")])])])) ∧
    oget ps k = some v :=
  ⟨rfl, flags_priority ctx ps k v hps hflag⟩

/-- Witness for claim C1 at the example context itself. -/
theorem claim_c1_flag_precedence_witness :
    combinedParams exCtxC1 =
      .ok [("database-connection-password", JValue.prim "secret3")] ∧
    oget (objectOfPairs (minimist exCtxC1.argv).2)
        "database-connection-password" = some (JValue.prim "secret3") ∧
    (getConfigOverrides exCtxC1 =
      .ok (some (JValue.obj [("database", JValue.obj [("connection",
        JValue.obj [("password", JValue.prim "secret3")])])])) ∧
     oget [("database-connection-password", JValue.prim "secret3")]
        "database-connection-password" = some (JValue.prim "secret3")) :=
  ⟨rfl, rfl, claim_c1_flag_precedence exCtxC1
    [("database-connection-password", JValue.prim "secret3")]
    "database-connection-password" (JValue.prim "secret3") rfl rfl⟩

/-- Claim C2: expansion round trip.  For every non-empty key path, expanding
with unflatten and reading back at that path returns exactly the value; in
particular this holds for the hyphen-split of any key string. -/
theorem claim_c2_roundtrip (ks : List String) (s : String) (v : JValue)
    (h : ks ≠ []) :
    getPath (unflatten ks v) ks = some v ∧
    getPath (unflatten (splitKey s) v) (splitKey s) = some v :=
  ⟨getPath_unflatten_self ks v h,
   getPath_unflatten_self _ v (splitKey_ne_nil s)⟩

/-- Witness for claim C2 at the path database.connection.password. -/
theorem claim_c2_roundtrip_witness :
    (["database", "connection", "password"] : List String) ≠ [] ∧
    getPath (unflatten ["database", "connection", "password"]
        (JValue.prim "x")) ["database", "connection", "password"] =
      some (JValue.prim "x") ∧
    getPath (unflatten (splitKey "database-connection-password")
        (JValue.prim "x")) (splitKey "database-connection-password") =
      some (JValue.prim "x") := by
  have h := claim_c2_roundtrip ["database", "connection", "password"]
    "database-connection-password" (JValue.prim "x") (by decide)
  exact ⟨by decide, h.1, h.2⟩

/-- Claim C3: deep merge preserves siblings.  For pairwise disjoint key
paths, merging the expansions in either order leaves both values reachable
at their paths (commutativity in terms of reachable values), grouping three
expansions either way leaves all three values reachable (associativity),
and deep-merging an expansion into any tree never changes the value at a
disjoint path. -/
theorem claim_c3_disjoint_merge (p q r : List String) (v w u t : JValue)
    (hpq : disjointPaths p q = true) (hpr : disjointPaths p r = true)
    (hqr : disjointPaths q r = true) :
    (getPath (mergeVal (unflatten p v) (unflatten q w)) p = some v ∧
     getPath (mergeVal (unflatten p v) (unflatten q w)) q = some w) ∧
    (getPath (mergeVal (unflatten q w) (unflatten p v)) p = some v ∧
     getPath (mergeVal (unflatten q w) (unflatten p v)) q = some w) ∧
    (getPath (mergeVal (mergeVal (unflatten p v) (unflatten q w))
        (unflatten r u)) p = some v ∧
     getPath (mergeVal (mergeVal (unflatten p v) (unflatten q w))
        (unflatten r u)) q = some w ∧
     getPath (mergeVal (mergeVal (unflatten p v) (unflatten q w))
        (unflatten r u)) r = some u ∧
     getPath (mergeVal (unflatten p v) (mergeVal (unflatten q w)
        (unflatten r u))) p = some v ∧
     getPath (mergeVal (unflatten p v) (mergeVal (unflatten q w)
        (unflatten r u))) q = some w ∧
     getPath (mergeVal (unflatten p v) (mergeVal (unflatten q w)
        (unflatten r u))) r = some u) ∧
    getPath (mergeVal t (unflatten p v)) q = getPath t q := by
  obtain ⟨hp, hq⟩ := disjointPaths_ne_nil hpq
  obtain ⟨-, hr⟩ := disjointPaths_ne_nil hpr
  have hqp := disjointPaths_symm hpq
  have hrp := disjointPaths_symm hpr
  have hrq := disjointPaths_symm hqr
  have i1 : getPath (mergeVal (unflatten p v) (unflatten q w)) p = some v := by
    rw [getPath_mergeVal_chain_other q (unflatten p v) p w hqp]
    exact getPath_unflatten_self p v hp
  have i2 : getPath (mergeVal (unflatten p v) (unflatten q w)) q = some w := by
    apply getPath_mergeVal_write q (unflatten p v) w hq
    exact getPath_unflatten_disjoint p q v hqp
  have i3 : getPath (mergeVal (unflatten q w) (unflatten p v)) p = some v := by
    apply getPath_mergeVal_write p (unflatten q w) v hp
    exact getPath_unflatten_disjoint q p w hpq
  have i4 : getPath (mergeVal (unflatten q w) (unflatten p v)) q = some w := by
    rw [getPath_mergeVal_chain_other p (unflatten q w) q v hpq]
    exact getPath_unflatten_self q w hq
  have a1 : getPath (mergeVal (mergeVal (unflatten p v) (unflatten q w))
      (unflatten r u)) p = some v := by
    rw [getPath_mergeVal_chain_other r _ p u hrp]; exact i1
  have a2 : getPath (mergeVal (mergeVal (unflatten p v) (unflatten q w))
      (unflatten r u)) q = some w := by
    rw [getPath_mergeVal_chain_other r _ q u hrq]; exact i2
  have hm12r : getPath (mergeVal (unflatten p v) (unflatten q w)) r = none :=
    getPath_mergeVal_none r _ _ (getPath_unflatten_disjoint p r v hrp)
      (getPath_unflatten_disjoint q r w hrq)
  have a3 : getPath (mergeVal (mergeVal (unflatten p v) (unflatten q w))
      (unflatten r u)) r = some u :=
    getPath_mergeVal_write r _ u hr hm12r
  have m23q : getPath (mergeVal (unflatten q w) (unflatten r u)) q =
      some w := by
    rw [getPath_mergeVal_chain_other r (unflatten q w) q u hrq]
    exact getPath_unflatten_self q w hq
  have m23r : getPath (mergeVal (unflatten q w) (unflatten r u)) r =
      some u :=
    getPath_mergeVal_write r (unflatten q w) u hr
      (getPath_unflatten_disjoint q r w hrq)
  have b2 : getPath (mergeVal (unflatten p v) (mergeVal (unflatten q w)
      (unflatten r u))) q = some w := by
    rw [getPath_chain_mergeVal_other p _ q v hpq]; exact m23q
  have b3 : getPath (mergeVal (unflatten p v) (mergeVal (unflatten q w)
      (unflatten r u))) r = some u := by
    rw [getPath_chain_mergeVal_other p _ r v hpr]; exact m23r
  have m23p : getPath (mergeVal (unflatten q w) (unflatten r u)) p = none :=
    getPath_mergeVal_none p _ _ (getPath_unflatten_disjoint q p w hpq)
      (getPath_unflatten_disjoint r p u hpr)
  have m23obj : ∀ n, n < p.length →
      objOrAbsentAt (mergeVal (unflatten q w) (unflatten r u))
        (p.take n) := by
    intro n hn
    have hqfalse : startsWithSeg q p = false :=
      (disjointPaths_components hqp).1
    have hrfalse : startsWithSeg r p = false :=
      (disjointPaths_components hrp).1
    apply objOrAbsentAt_mergeVal
    · apply unflatten_objOrAbsentAt
      cases hqt : startsWithSeg q (p.take n) with
      | false => rfl
      | true =>
        rw [startsWithSeg_take q p n hqt] at hqfalse
        cases hqfalse
    · apply unflatten_objOrAbsentAt
      cases hrt : startsWithSeg r (p.take n) with
      | false => rfl
      | true =>
        rw [startsWithSeg_take r p n hrt] at hrfalse
        cases hrfalse
  have b1 : getPath (mergeVal (unflatten p v) (mergeVal (unflatten q w)
      (unflatten r u))) p = some v :=
    getPath_chain_mergeVal_write p _ v hp m23p m23obj
  exact ⟨⟨i1, i2⟩, ⟨i3, i4⟩, ⟨a1, a2, a3, b1, b2, b3⟩,
    getPath_mergeVal_chain_other p t q v hpq⟩

/-- Witness for claim C3 at the sibling paths a.b and a.c plus d, over a
tree that already holds an unrelated value. -/
theorem claim_c3_disjoint_merge_witness :
    disjointPaths ["a", "b"] ["a", "c"] = true ∧
    disjointPaths ["a", "b"] ["d"] = true ∧
    disjointPaths ["a", "c"] ["d"] = true ∧
    (getPath (mergeVal (unflatten ["a", "b"] (JValue.prim "1"))
        (unflatten ["a", "c"] (JValue.prim "2"))) ["a", "b"] =
      some (JValue.prim "1") ∧
     getPath (mergeVal (unflatten ["a", "b"] (JValue.prim "1"))
        (unflatten ["a", "c"] (JValue.prim "2"))) ["a", "c"] =
      some (JValue.prim "2")) ∧
    getPath (mergeVal (JValue.obj [("keep", JValue.prim "z")])
        (unflatten ["a", "b"] (JValue.prim "1"))) ["a", "c"] =
      getPath (JValue.obj [("keep", JValue.prim "z")]) ["a", "c"] := by
  have h := claim_c3_disjoint_merge ["a", "b"] ["a", "c"] ["d"]
    (JValue.prim "1") (JValue.prim "2") (JValue.prim "3")
    (JValue.obj [("keep", JValue.prim "z")])
    (by decide) (by decide) (by decide)
  exact ⟨by decide, by decide, by decide, h.1, h.2.2.2⟩

/-- Claim C4: with no matching environment variable, no flags and no
positional files the function does not throw, and every absent source
contributes nothing; but the reduce of the resulting empty expansion list
yields undefined rather than the (empty) override tree the claim and the
function's own docstring promise: the returned value is not a tree at
all. -/
theorem claim_c4_empty_sources :
    getConfigOverrides emptyCtx = .ok none ∧
    (Except.ok none : Except Unit (Option JValue)) ≠
      .ok (some (JValue.obj [])) :=
  ⟨rfl, by simp⟩

/-- Claim C5: where both environment patterns derive the same key, the
ghost-prefixed variable's value is the one present in the combined
environment-derived object. -/
theorem claim_c5_ghost_wins (env : List (String × String)) (k : String)
    (v : JValue)
    (h : lastget (envMatchPairs ghostMatch env) k = some v) :
    oget (envParams env) k = some v := by
  unfold envParams
  rw [oget_assignObj, lastget_objectOfPairs, h]

/-- Witness for claim C5: npm supplies a=1 and ghost supplies a=2; the
combined environment object holds 2. -/
theorem claim_c5_ghost_wins_witness :
    lastget (envMatchPairs ghostMatch
        [("npm_package_config_a", "1"), ("ghost_a", "2")]) "a" =
      some (JValue.prim "2") ∧
    oget (envParams [("npm_package_config_a", "1"), ("ghost_a", "2")]) "a" =
      some (JValue.prim "2") :=
  ⟨rfl, claim_c5_ghost_wins _ "a" _ rfl⟩

/-- Claim C6 counterexample: the derived key is not the suffix taken
verbatim, because underscores in the suffix are translated to hyphens:
ghost_a_b=x yields the key a-b, and no key a_b exists. -/
theorem claim_c6_counterexample :
    oget (envParams [("ghost_a_b", "x")]) "a_b" = none ∧
    oget (envParams [("ghost_a_b", "x")]) "a-b" = some (JValue.prim "x") :=
  ⟨rfl, rfl⟩

/-- Claim C6 amended: for every name made of a prefix spelling ghost_ in any
letter case followed by a suffix, the pattern match succeeds and captures
the suffix with its case preserved; the derived key is the suffix with
underscores translated to hyphens, hence verbatim exactly when the suffix
has no underscore; GHOST_Foo=1 and ghost_Foo=1 both yield key Foo while
GHOST_foo=1 yields the distinct key foo. -/
theorem claim_c6_amended (pre suf : List Char)
    (hpre : pre.map Char.toLower = "ghost_".data)
    (hsuf : ∀ c ∈ suf, ¬ c = '_') :
    ghostMatch (String.mk (pre ++ suf)) = some (String.mk suf) ∧
    underToHyphen (String.mk suf) = String.mk suf ∧
    envParams [("GHOST_Foo", "1")] = [("Foo", JValue.prim "1")] ∧
    envParams [("ghost_Foo", "1")] = [("Foo", JValue.prim "1")] ∧
    envParams [("GHOST_foo", "1")] = [("foo", JValue.prim "1")] ∧
    ("Foo" : String) ≠ "foo" := by
  refine ⟨?_, ?_, rfl, rfl, rfl, by decide⟩
  · unfold ghostMatch
    have hg : "ghost_".data.map Char.toLower = "ghost_".data := by decide
    have hstrip : stripCI "ghost_".data (String.mk (pre ++ suf)).data =
        some suf := by
      show stripCI "ghost_".data (pre ++ suf) = some suf
      apply stripCI_append
      rw [hpre]
      exact hg.symm
    rw [hstrip]
  · unfold underToHyphen
    show String.mk (suf.map _) = String.mk suf
    rw [map_no_underscore_id suf hsuf]

/-- Witness for claim C6 at the mixed-case prefix GhOsT_ and suffix Foo. -/
theorem claim_c6_amended_witness :
    "GhOsT_".data.map Char.toLower = "ghost_".data ∧
    (∀ c ∈ "Foo".data, ¬ c = '_') ∧
    (ghostMatch (String.mk ("GhOsT_".data ++ "Foo".data)) =
      some (String.mk "Foo".data) ∧
     underToHyphen (String.mk "Foo".data) = String.mk "Foo".data ∧
     envParams [("GHOST_Foo", "1")] = [("Foo", JValue.prim "1")] ∧
     envParams [("ghost_Foo", "1")] = [("Foo", JValue.prim "1")] ∧
     envParams [("GHOST_foo", "1")] = [("foo", JValue.prim "1")] ∧
     ("Foo" : String) ≠ "foo") :=
  ⟨by decide, by decide,
   claim_c6_amended "GhOsT_".data "Foo".data (by decide) (by decide)⟩

/-- Claim C7: among positional file arguments, a later file's value for a
shared top-level key entirely replaces the earlier file's value (shallow
assign, not a deep merge: the result at the key is exactly the later file's
value), and flag-derived pairs take priority over file-derived pairs in the
combined flat mapping. -/
theorem claim_c7_files_shallow (fs : String → Option JValue)
    (cwd p1 p2 : String) (o1 o2 : List (String × JValue)) (k : String)
    (w : JValue) (ctx : Ctx) (ps : List (String × JValue)) (k2 : String)
    (v2 : JValue)
    (h1 : fs (resolvePath cwd p1) = some (JValue.obj o1))
    (h2 : fs (resolvePath cwd p2) = some (JValue.obj o2))
    (hnd : (keysOf o2).Nodup)
    (hk : oget o2 k = some w)
    (hps : combinedParams ctx = .ok ps)
    (hflag : oget (objectOfPairs (minimist ctx.argv).2) k2 = some v2) :
    loadFiles fs cwd [p1, p2] = .ok [JValue.obj o1, JValue.obj o2] ∧
    filesObject [JValue.obj o1, JValue.obj o2] = assignObj o1 o2 ∧
    oget (assignObj o1 o2) k = some w ∧
    oget ps k2 = some v2 := by
  refine ⟨by simp [loadFiles, h1, h2], rfl, ?_,
    flags_priority ctx ps k2 v2 hps hflag⟩
  rw [oget_assignObj, lastget_eq_oget_of_nodup o2 k hnd, hk]

/-- Witness for claim C7: two files both defining the top-level key a with
different object values; the second replaces the first wholesale; a flag
z=9 lands in the combined mapping. -/
theorem claim_c7_files_shallow_witness :
    fsTwoFiles (resolvePath "" "f1") =
      some (JValue.obj [("a", JValue.obj [("x", JValue.prim "1")])]) ∧
    combinedParams ctxFlagZ = .ok [("z", JValue.prim "9")] ∧
    (loadFiles fsTwoFiles "" ["f1", "f2"] =
      .ok [JValue.obj [("a", JValue.obj [("x", JValue.prim "1")])],
           JValue.obj [("a", JValue.obj [("y", JValue.prim "2")])]] ∧
     filesObject [JValue.obj [("a", JValue.obj [("x", JValue.prim "1")])],
           JValue.obj [("a", JValue.obj [("y", JValue.prim "2")])]] =
       assignObj [("a", JValue.obj [("x", JValue.prim "1")])]
         [("a", JValue.obj [("y", JValue.prim "2")])] ∧
     oget (assignObj [("a", JValue.obj [("x", JValue.prim "1")])]
         [("a", JValue.obj [("y", JValue.prim "2")])]) "a" =
       some (JValue.obj [("y", JValue.prim "2")]) ∧
     oget [("z", JValue.prim "9")] "z" = some (JValue.prim "9")) :=
  ⟨rfl, rfl,
   claim_c7_files_shallow fsTwoFiles "" "f1" "f2"
     [("a", JValue.obj [("x", JValue.prim "1")])]
     [("a", JValue.obj [("y", JValue.prim "2")])] "a"
     (JValue.obj [("y", JValue.prim "2")])
     ctxFlagZ [("z", JValue.prim "9")] "z" (JValue.prim "9")
     rfl rfl (by decide) rfl rfl rfl⟩

/-- Claim C8: a positional file argument whose resolved path fails to load
makes getConfigOverrides fail outright: the error propagates and no
override tree, not even a partial one, is returned. -/
theorem claim_c8_file_failure (ctx : Ctx) (p : String)
    (hmem : p ∈ (minimist ctx.argv).1)
    (hf : ctx.fs (resolvePath ctx.cwd p) = none) :
    getConfigOverrides ctx = .error () := by
  have h := loadFiles_error ctx.fs ctx.cwd (minimist ctx.argv).1 p hmem hf
  unfold getConfigOverrides combinedParams
  rw [h]

/-- Witness for claim C8 at a single missing positional file. -/
theorem claim_c8_file_failure_witness :
    ("missing" ∈ (minimist ctxMissing.argv).1) ∧
    getConfigOverrides ctxMissing = .error () :=
  ⟨by decide, claim_c8_file_failure ctxMissing "missing" (by decide) rfl⟩

/-- Claim C9: every key in the combined flat mapping splits on hyphens into
a list with at least one segment, so unflatten is only ever applied to a
non-empty segment list and its first-segment access is always defined: the
out-of-bounds branch is unreachable. -/
theorem claim_c9_nonempty_paths (ctx : Ctx) (ps : List (String × JValue))
    (_hps : combinedParams ctx = .ok ps) :
    ∀ kv ∈ ps, splitKey kv.1 ≠ [] ∧ ∃ k0 ks, splitKey kv.1 = k0 :: ks := by
  intro kv _
  refine ⟨splitKey_ne_nil _, ?_⟩
  cases h : splitKey kv.1 with
  | nil => exact absurd h (splitKey_ne_nil _)
  | cons a b => exact ⟨a, b, rfl⟩

/-- Witness for claim C9 at a context whose combined mapping has one key. -/
theorem claim_c9_nonempty_paths_witness :
    combinedParams ctxGhostA = .ok [("a", JValue.prim "1")] ∧
    (∀ kv ∈ [("a", JValue.prim "1")], splitKey kv.1 ≠ [] ∧
      ∃ k0 ks, splitKey kv.1 = k0 :: ks) :=
  ⟨rfl, claim_c9_nonempty_paths ctxGhostA [("a", JValue.prim "1")] rfl⟩

/-- Claim C10: a hyphenated top-level key of a loaded file is split like any
other key, so a file containing a-b: v yields the tree a.b = v rather than
a literal top-level key a-b; keys nested below the top level inside file
values are attached as-is, without splitting. -/
theorem claim_c10_file_key_split (fs : String → Option JValue)
    (cwd p k : String) (v : JValue)
    (hp : isDashTok p = false)
    (hf : fs (resolvePath cwd p) = some (JValue.obj [(k, v)])) :
    getConfigOverrides { env := [], argv := [p], fs := fs, cwd := cwd } =
      .ok (some (unflatten (splitKey k) v)) ∧
    getConfigOverrides ctxTopHyphen =
      .ok (some (JValue.obj [("a", JValue.obj [("b", JValue.prim "x")])])) ∧
    getConfigOverrides ctxNested =
      .ok (some (JValue.obj [("a", JValue.obj [("b-c",
        JValue.prim "x")])])) := by
  refine ⟨?_, rfl, rfl⟩
  have hm : minimist [p] = ([p], []) := by
    rw [minimist_cons_plain p [] hp]; rfl
  unfold getConfigOverrides combinedParams
  simp only [hm, loadFiles, hf]
  simp [filesObject, toObj, envParams, envMatchPairs, objectOfPairs,
    assignObj, oset, reduceMerge]

/-- Witness for claim C10 at the one-file context defining the key a-b. -/
theorem claim_c10_file_key_split_witness :
    isDashTok "cfg" = false ∧
    fsTopHyphen (resolvePath "" "cfg") =
      some (JValue.obj [("a-b", JValue.prim "x")]) ∧
    getConfigOverrides { env := [], argv := ["cfg"], fs := fsTopHyphen, cwd := "" } =
      .ok (some (unflatten (splitKey "a-b") (JValue.prim "x"))) :=
  ⟨by decide, rfl,
   (claim_c10_file_key_split fsTopHyphen "" "cfg" "a-b" (JValue.prim "x")
     (by decide) rfl).1⟩

end Ghost
